import Mathlib

/-!
Verification development for the snnax repository.

The repository packages a library for spiking neural networks in JAX.  The
sources available here are the packaging metadata, the README and the tutorial
notebook examples/tutorial_Recurrence.ipynb; the library modules themselves
(snnax/snn/composed.py and friends) are not present, so the layer-graph
execution engine is modelled from the specification text, while the notebook
code (loss function, update step, training loop, recorded cell outputs) is
embedded directly from the notebook source.
-/

set_option autoImplicit false

namespace Snnax

/-- Modelled from the spec: one incoming connection of a layer in the
connectivity specification of the layer-graph execution engine (the snnax
composed/graph modules are absent from the sources).  A connection either
feeds the network input to the layer, or feeds the output of layer j into
it; cycles arise when j is not smaller than the receiving layer index. -/
inductive Conn : Type where
  | input : Conn
  | layer : Nat → Conn
deriving DecidableEq

/-- Modelled from the spec: a layer of the graph is either stateful (a
recurrent cell such as a leaky integrate-and-fire neuron, with a step
function taking a PRNG key, the old hidden state and the input and returning
the new hidden state and the output, together with an initial hidden state)
or stateless (such as a convolution), taking only a key and the input. -/
inductive Layer (α : Type) : Type where
  | stateful : (Nat → α → α → α × α) → α → Layer α
  | stateless : (Nat → α → α) → Layer α

/-- A layer together with its incoming connections. -/
structure LayerSpec (α : Type) : Type where
  layer : Layer α
  conns : List Conn

/-- Modelled from the spec: a model is the list of layers of the graph with
their connectivity. -/
abbrev Model (α : Type) := List (LayerSpec α)

/-- Modelled from the spec: deterministic splitting of a PRNG key, standing
in for jax.random.split. -/
def splitKey (k : Nat) : Nat × Nat := (2 * k + 1, 2 * k + 2)

/-- Deterministic derivation of a per-layer key from the step key. -/
def mixKey (k i : Nat) : Nat := k * 1000003 + i

/-- Whether a layer is stateful. -/
def Layer.isStateful {α : Type} : Layer α → Bool
  | .stateful _ _ => true
  | .stateless _ => false

/-- Run one layer on one input: a stateful layer reads its hidden state
(falling back to its initial state) and returns the new hidden state, a
stateless layer keeps no hidden state. -/
def applyLayer {α : Type} : Layer α → Nat → Option α → α → Option α × α
  | .stateful step i0, k, st, x =>
      let r := step k (st.getD i0) x
      (some r.1, r.2)
  | .stateless f, k, _, x => (none, f k x)

/-- Value carried by one connection while layer i is being executed:
connections from layers already executed this step (j < i) read the current
step outputs, feedback connections (j not below i) read the outputs of the
previous step, as the ordering constraints of the spec demand. -/
def connValue {α : Type} [Zero α] (prevOuts curOuts : List α) (i : Nat)
    (ext : α) : Conn → α
  | .input => ext
  | .layer j => if j < i then curOuts.getD j 0 else prevOuts.getD j 0

/-- Total input of layer i: the sum of the values of its connections. -/
def gather {α : Type} [Zero α] [Add α] (prevOuts curOuts : List α) (i : Nat)
    (ext : α) (cs : List Conn) : α :=
  cs.foldl (fun acc c => acc + connValue prevOuts curOuts i ext c) 0

/-- Modelled from the spec: execute the layers of the model in index order
within one time step, threading the per-layer hidden states and collecting
the per-layer outputs.  The argument i is the index of the first remaining
layer and curOuts holds the outputs of the layers already executed. -/
def stepFrom {α : Type} [Zero α] [Add α] (prevOuts : List α) (ext : α)
    (key : Nat) : Nat → List α → Model α → List (Option α) →
    List (Option α) × List α
  | _, _, [], _ => ([], [])
  | i, curOuts, ls :: rest, sts =>
      let inp := gather prevOuts curOuts i ext ls.conns
      let r := applyLayer ls.layer (mixKey key i) (sts.headD none) inp
      let tr := stepFrom prevOuts ext key (i + 1) (curOuts ++ [r.2]) rest sts.tail
      (r.1 :: tr.1, r.2 :: tr.2)

/-- One discrete time step of the whole graph. -/
def stepOnce {α : Type} [Zero α] [Add α] (m : Model α) (key : Nat)
    (prevOuts : List α) (sts : List (Option α)) (ext : α) :
    List (Option α) × List α :=
  stepFrom prevOuts ext key 0 [] m sts

/-- List of n zeros, the initial feedback outputs. -/
def zeros (α : Type) [Zero α] (n : Nat) : List α := List.replicate n 0

/-- Carry of the scan loop: per-layer hidden states, previous-step outputs
and the PRNG key. -/
abbrev Carry (α : Type) := List (Option α) × List α × Nat

/-- Scan body: split the key, run one time step, thread states and outputs. -/
def scanStep {α : Type} [Zero α] [Add α] (m : Model α) (c : Carry α)
    (ext : α) : Carry α × List α :=
  let ks := splitKey c.2.2
  let r := stepOnce m ks.1 c.2.1 c.1 ext
  ((r.1, r.2, ks.2), r.2)

/-- Modelled from the spec: model.init_state builds the explicit per-layer
hidden state value, one entry per layer; stateful layers start at their
initial state and stateless layers carry none.  The key argument mirrors
the call model.init_state(shape, key) of the notebook. -/
def initState {α : Type} (m : Model α) (key : Nat) : List (Option α) :=
  m.map fun ls =>
    match ls.layer with
    | .stateful _ i0 => some i0
    | .stateless _ => none

/-- Generic scan in the shape of jax.lax.scan: thread a carry through the
list and collect the per-element outputs. -/
def scanList {σ α β : Type} (f : σ → α → σ × β) : σ → List α → σ × List β
  | c, [] => (c, [])
  | c, x :: xs =>
      let r := f c x
      let t := scanList f r.1 xs
      (t.1, r.2 :: t.2)

/-- Transpose the time-major step outputs into one output sequence per
layer, the form in which the model call returns them. -/
def layerMajor {α : Type} [Zero α] (n : Nat) (rows : List (List α)) :
    List (List α) :=
  (List.range n).map fun l => rows.map fun row => row.getD l 0

/-- Modelled from the spec: the model call.  Running the model over the
input sequence in a single scan loop returns the pair of the final
per-layer hidden states and the per-layer output sequences. -/
def forward {α : Type} [Zero α] [Add α] (m : Model α) (s0 : List (Option α))
    (data : List α) (key : Nat) : List (Option α) × List (List α) :=
  let r := scanList (scanStep m) (s0, zeros α m.length, key) data
  (r.1.1, layerMajor m.length r.2)

/-- Naive per-step loop: a for-loop over the input sequence that applies the
one-step update function once per time step in input order, appending each
step output to an accumulator.  The scan-based execution is compared against
this loop. -/
def naiveRun {α : Type} [Zero α] [Add α] (m : Model α) (c : Carry α)
    (data : List α) : Carry α × List (List α) :=
  data.foldl
    (fun p x =>
      let r := scanStep m p.1 x
      (r.1, p.2 ++ [r.2]))
    (c, [])

/-- Whether the connectivity of the model contains a feedback edge: a
connection of layer i reading the output of a layer j with i not greater
than j (a cycle in the layer graph). -/
def hasFeedback {α : Type} (m : Model α) : Bool :=
  m.enum.any fun p =>
    p.2.conns.any fun c =>
      match c with
      | Conn.layer j => decide (p.1 ≤ j)
      | Conn.input => false

/-- Whether one state entry fits its layer: stateful layers hold a hidden
state, stateless layers hold none. -/
def stateMatches {α : Type} : Layer α → Option α → Bool
  | .stateful _ _, some _ => true
  | .stateless _, none => true
  | _, _ => false

/-- Whether a state list is well formed for the model: one entry per layer,
each fitting its layer. -/
def statesWF {α : Type} (m : Model α) (sts : List (Option α)) : Bool :=
  (sts.length == m.length) &&
    (List.zip m sts).all fun p => stateMatches p.1.layer p.2

/-- Update step of the notebook (tutorial_Recurrence.ipynb, update): split
the key, build the explicit initial states with model.init_state, run the
loss-and-gradient computation on the unchanged model, ask the optimizer for
the updates and build the new model with eqx.apply_updates.  The gradient
computation, the optimizer and apply_updates delegate to the host ecosystem
and are abstract parameters. -/
def updateStep {α G O : Type} [Zero α] [Add α]
    (lossGrads : Model α → List (Option α) → α → α → Nat → α × G)
    (optimUpdate : G → O → G × O)
    (applyUpd : Model α → G → Model α)
    (model : Model α) (optS : O) (inputB targetB : α) (key : Nat) :
    Model α × O × α :=
  let ks := splitKey key
  let states := initState model ks.1
  let lg := lossGrads model states inputB targetB ks.2
  let uo := optimUpdate lg.2 optS
  (applyUpd model uo.1, uo.2, lg.1)

/-- Modelled from the spec: a leaky integrate-and-fire layer over the
rationals, whose hidden state is the membrane potential; it decays,
integrates the input, and emits a spike and resets when it crosses the
threshold 1.  The numeric neuron definitions are absent from the sources. -/
def lif (alpha : ℚ) : Layer ℚ :=
  .stateful
    (fun _ s x =>
      let v := alpha * s + x
      (if 1 ≤ v then 0 else v, if 1 ≤ v then 1 else 0))
    0

/-- A stateless linear layer over the rationals, standing for the
stateless equinox layers (Conv2d, Linear, Flatten) of the notebook. -/
def linearL (w : ℚ) : Layer ℚ := .stateless fun _ x => w * x

/-- Elementwise sum of two vectors, as jnp addition of equally shaped
arrays. -/
def addVec (a b : List ℝ) : List ℝ := List.zipWith (fun x y => x + y) a b

/-- Embedding of jnp.sum(x, axis=0) on a time-major array: fold the rows
with elementwise addition. -/
def sumAxis0 (rows : List (List ℝ)) : List ℝ :=
  match rows with
  | [] => []
  | r :: rs => rs.foldl addVec r

/-- Softmax cross-entropy of optax: the negated sum over classes of the
target weight times the log-softmax of the logits. -/
noncomputable def softmaxCrossEntropy (pred target : List ℝ) : ℝ :=
  let lse := Real.log ((pred.map Real.exp).sum)
  Neg.neg (((List.zip target pred).map fun p => p.1 * (p.2 - lse)).sum)

/-- Spec-side pointwise description of the summed logits: entry j is the
sum over time of entry j of each row. -/
def pointwiseTimeSum (w : Nat) (rows : List (List ℝ)) : List ℝ :=
  (List.range w).map fun j => (rows.map fun r => r.getD j 0).sum

/-- The type of the abstract model call of the notebook loss function:
initial states, data and key to final states and per-layer output
sequences, where the last layer emits one logit vector per time step. -/
abbrev NbModel : Type :=
  List (List ℝ) → List (List ℝ) → Nat → List (List ℝ) × List (List (List ℝ))

/-- Loss function of the notebook (tutorial_Recurrence.ipynb, loss_fn):
call the model, take the output of the last layer, sum all spikes of each
output neuron along the time axis and return the softmax cross-entropy
against the target. -/
noncomputable def lossFn (model : NbModel) (initStates : List (List ℝ))
    (data : List (List ℝ)) (target : List ℝ) (key : Nat) : ℝ :=
  let so := model initStates data key
  let finalLayerOut := so.2.getLastD []
  let pred := sumAxis0 finalLayerOut
  softmaxCrossEntropy pred target

/-- The vmapped loss of the notebook: loss_fn mapped over the batch axes
of data, target and key. -/
noncomputable def lossFnBatch (model : NbModel) (initStates : List (List ℝ))
    (dataB : List (List (List ℝ))) (targetB : List (List ℝ))
    (keyB : List Nat) : List ℝ :=
  (List.zip dataB (List.zip targetB keyB)).map fun p =>
    lossFn model initStates p.1 p.2.1 p.2.2

/-- Batch loss of the notebook (loss_and_grads body): jnp.sum of the
vmapped loss values. -/
noncomputable def lossValue (model : NbModel) (initStates : List (List ℝ))
    (dataB : List (List (List ℝ))) (targetB : List (List ℝ))
    (keyB : List Nat) : ℝ :=
  (lossFnBatch model initStates dataB targetB keyB).sum

/-- Result of binding the positional arguments of a Python call to the
parameters of the called function. -/
inductive CallResult : Type where
  | ok : List (String × String) → CallResult
  | missingArgs : List String → CallResult
  | tooManyArgs : Nat → Nat → CallResult
deriving DecidableEq

/-- Positional binding of a Python call: too few arguments leave the last
parameters missing, too many raise an arity error, otherwise every
parameter is bound in order. -/
def bindCall (params args : List String) : CallResult :=
  if args.length < params.length then
    CallResult.missingArgs (params.drop args.length)
  else if params.length < args.length then
    CallResult.tooManyArgs params.length args.length
  else CallResult.ok (params.zip args)

/-- The bound environment of a call when binding succeeds, none when the
call raises an arity error instead of executing. -/
def runCall (params args : List String) : Option (List (String × String)) :=
  match bindCall params args with
  | CallResult.ok b => some b
  | _ => none

/-- Parameters of update as declared in the notebook. -/
def updateParams : List String :=
  ["model", "optim", "opt_state", "input_batch", "target_batch",
    "loss_fn", "key"]

/-- Arguments of the update invocation in the training loop of the
notebook. -/
def trainLoopUpdateArgs : List String :=
  ["model", "optim", "opt_state", "input_batch", "one_hot_target_batch",
    "model_key"]

/-- Parameters of loss_and_grads as declared in the notebook. -/
def lossAndGradsParams : List String :=
  ["model", "init_states", "data", "target", "key"]

/-- Arguments of the loss_and_grads invocation inside update in the
notebook. -/
def updateLossAndGradsArgs : List String :=
  ["model", "states", "input_batch", "target_batch", "loss_fn", "grad_key"]

/-- A recorded error output of a notebook cell. -/
structure NbError : Type where
  ename : String
  evalue : String
deriving DecidableEq

/-- The error recorded in the output of the snn.Sequential model cell of
the notebook. -/
def modelCellError : NbError :=
  ⟨"ValueError", "not enough values to unpack (expected 3, got 2)"⟩

/-- The recorded error outputs of the snn.Sequential model cell. -/
def modelCellOutputs : List NbError := [modelCellError]

/-- A cell produces a usable value only when it recorded no error. -/
def cellSucceeded (errs : List NbError) : Bool := errs.isEmpty

/-- Python tuple unpacking: unpacking a sequence of the wrong length into n
targets raises a ValueError with the message recorded by the notebook. -/
def unpackTuple {β : Type} (n : Nat) (xs : List β) : Except String (List β) :=
  if xs.length < n then
    Except.error ("not enough values to unpack (expected " ++ toString n ++
      ", got " ++ toString xs.length ++ ")")
  else if n < xs.length then
    Except.error ("too many values to unpack (expected " ++ toString n ++ ")")
  else Except.ok xs

/-- A layer family parameterized by a real parameter, for the
differentiability claim: the parameter stands for the trainable weights of
the layer. -/
inductive PLayer : Type where
  | stateful : (ℝ → Nat → ℝ → ℝ → ℝ × ℝ) → (ℝ → ℝ) → PLayer
  | stateless : (ℝ → Nat → ℝ → ℝ) → PLayer

/-- The layer obtained at a concrete parameter value. -/
def PLayer.inst : PLayer → ℝ → Layer ℝ
  | .stateful step i0, t => .stateful (step t) (i0 t)
  | .stateless f, t => .stateless (f t)

/-- A parameterized layer with its incoming connections. -/
structure PLayerSpec : Type where
  pl : PLayer
  conns : List Conn

/-- The model obtained at a concrete parameter value. -/
def instModel (pm : List PLayerSpec) (t : ℝ) : Model ℝ :=
  pm.map fun s => ⟨s.pl.inst t, s.conns⟩

/-- Differentiability of a parameterized layer: its step function is
differentiable jointly in the parameter, the state and the input, and its
initial state is differentiable in the parameter. -/
def DiffPLayer : PLayer → Prop
  | .stateful step i0 =>
      (∀ k, Differentiable ℝ fun v : ℝ × ℝ × ℝ => (step v.1 k v.2.1 v.2.2).1) ∧
      (∀ k, Differentiable ℝ fun v : ℝ × ℝ × ℝ => (step v.1 k v.2.1 v.2.2).2) ∧
      Differentiable ℝ i0
  | .stateless f =>
      ∀ k, Differentiable ℝ fun v : ℝ × ℝ => f v.1 k v.2

/-- A family of real lists that is pointwise a fixed list of differentiable
functions of the parameter. -/
def DiffFam (g : ℝ → List ℝ) : Prop :=
  ∃ fs : List (ℝ → ℝ), (∀ f ∈ fs, Differentiable ℝ f) ∧
    ∀ t, g t = fs.map fun f => f t

/-- A family of optional-state lists that is pointwise a fixed list of
optional differentiable functions of the parameter. -/
def DiffStFam (g : ℝ → List (Option ℝ)) : Prop :=
  ∃ fs : List (Option (ℝ → ℝ)),
    (∀ f, Option.some f ∈ fs → Differentiable ℝ f) ∧
    ∀ t, g t = fs.map fun o => o.map fun f => f t

/-- A family of lists of real lists that is pointwise a fixed list of
DiffFam families. -/
def DiffFam2 (g : ℝ → List (List ℝ)) : Prop :=
  ∃ fs : List (ℝ → List ℝ), (∀ f ∈ fs, DiffFam f) ∧
    ∀ t, g t = fs.map fun f => f t

/-- Per-sample loss of the differentiability claim: a differentiable
readout of the summed output sequence of the last layer, the shape of the
notebook loss (sum of spikes along time, then a smooth loss). -/
def sampleLoss (readout : ℝ → ℝ) (m : Model ℝ) (ikey : Nat)
    (data : List ℝ) (key : Nat) : ℝ :=
  readout ((forward m (initState m ikey) data key).2.getLastD []).sum

/-- Summed batch loss of the differentiability claim, as a function of the
parameter: the sum over the batch of the per-sample losses of the
instantiated model. -/
def totalLoss (readout : ℝ → ℝ) (pm : List PLayerSpec) (ikey : Nat)
    (batch : List (List ℝ × Nat)) (t : ℝ) : ℝ :=
  (batch.map fun s => sampleLoss readout (instModel pm t) ikey s.1 s.2).sum

/-- A small concrete model: an LIF layer reading the network input followed
by a stateless linear readout. -/
def exModel : Model ℚ :=
  [⟨lif (19 / 20), [Conn.input]⟩, ⟨linearL 2, [Conn.layer 0]⟩]

/-- A small concrete model with a feedback edge: layer 0 reads the network
input and the previous-step output of layer 1, which executes after it. -/
def exFeedback : Model ℚ :=
  [⟨lif (19 / 20), [Conn.input, Conn.layer 1]⟩, ⟨linearL 2, [Conn.layer 0]⟩]

/-- A small concrete parameterized model with a feedback edge, whose layers
are differentiable in the parameter. -/
def exPLayers : List PLayerSpec :=
  [⟨PLayer.stateful (fun t _ s x => (s + t * x, s + t * x)) (fun t => t),
      [Conn.input, Conn.layer 1]⟩,
    ⟨PLayer.stateless (fun t _ x => t * x), [Conn.layer 0]⟩]

/-- A small concrete abstract model for the notebook loss function: two
layers, the last of which emits two time steps of two logits. -/
def exNbModel : NbModel :=
  fun _ _ _ => ([], [[[1, 0]], [[2, 1], [0, 3]]])

/-- Within one time step, one new hidden state is produced per remaining
layer. -/
theorem stepFrom_fst_length {α : Type} [Zero α] [Add α] (prev : List α)
    (ext : α) (key : Nat) :
    ∀ (m : Model α) (i : Nat) (cur : List α) (sts : List (Option α)),
      (stepFrom prev ext key i cur m sts).1.length = m.length := by
  intro m
  induction m with
  | nil => intro i cur sts; rfl
  | cons ls rest ih =>
      intro i cur sts
      simp only [stepFrom, List.length_cons]
      rw [ih]

/-- Within one time step, one output is produced per remaining layer. -/
theorem stepFrom_snd_length {α : Type} [Zero α] [Add α] (prev : List α)
    (ext : α) (key : Nat) :
    ∀ (m : Model α) (i : Nat) (cur : List α) (sts : List (Option α)),
      (stepFrom prev ext key i cur m sts).2.length = m.length := by
  intro m
  induction m with
  | nil => intro i cur sts; rfl
  | cons ls rest ih =>
      intro i cur sts
      simp only [stepFrom, List.length_cons]
      rw [ih]

/-- One time step produces one hidden state per layer. -/
theorem stepOnce_fst_length {α : Type} [Zero α] [Add α] (m : Model α)
    (key : Nat) (prev : List α) (sts : List (Option α)) (ext : α) :
    (stepOnce m key prev sts ext).1.length = m.length :=
  stepFrom_fst_length prev ext key m 0 [] sts

/-- One time step produces one output per layer. -/
theorem stepOnce_snd_length {α : Type} [Zero α] [Add α] (m : Model α)
    (key : Nat) (prev : List α) (sts : List (Option α)) (ext : α) :
    (stepOnce m key prev sts ext).2.length = m.length :=
  stepFrom_snd_length prev ext key m 0 [] sts

/-- The scan emits one row of outputs per time step. -/
theorem scanList_snd_length {σ α β : Type} (f : σ → α → σ × β) :
    ∀ (xs : List α) (c : σ), ((scanList f c xs).2).length = xs.length := by
  intro xs
  induction xs with
  | nil => intro c; rfl
  | cons x t ih =>
      intro c
      simp only [scanList, List.length_cons]
      rw [ih]

/-- The scan keeps one hidden state per layer in its carry. -/
theorem scan_state_length {α : Type} [Zero α] [Add α] (m : Model α) :
    ∀ (data : List α) (c : Carry α), c.1.length = m.length →
      ((scanList (scanStep m) c data).1).1.length = m.length := by
  intro data
  induction data with
  | nil => intro c h; exact h
  | cons x xs ih =>
      intro c h
      simp only [scanList]
      exact ih _ (stepOnce_fst_length m _ _ _ _)

/-- The layer-major output list has one entry per layer. -/
theorem layerMajor_length {α : Type} [Zero α] (n : Nat)
    (rows : List (List α)) : (layerMajor n rows).length = n := by
  simp [layerMajor]

/-- Each layer-major output sequence has one entry per row. -/
theorem layerMajor_getD_length {α : Type} [Zero α] (n : Nat)
    (rows : List (List α)) (l : Nat) (h : l < n) :
    ((layerMajor n rows).getD l []).length = rows.length := by
  simp only [layerMajor, List.getD_eq_getElem?_getD, List.getElem?_map,
    List.getElem?_range h, Option.map_some', Option.getD_some]
  simp

/-- Indexing a list at its last position with getLastD agrees with getD at
length minus one. -/
theorem getLastD_eq_getD {β : Type} :
    ∀ (l : List β) (d : β), l.getLastD d = l.getD (l.length - 1) d := by
  intro l
  induction l with
  | nil => intro d; rfl
  | cons a t ih =>
      intro d
      rw [List.getLastD_cons]
      cases t with
      | nil => rfl
      | cons b t2 =>
          rw [ih a]
          simp [List.getD]

/-- Claim C1: for every model built from a set of layers, every initial
per-layer state and every input sequence, the model call returns a pair
whose first component holds one new hidden state for every layer and whose
second component holds one output sequence for every layer, each sequence
as long as the input, so that indexing the output list at its last
position yields the output sequence of the last layer. -/
theorem forward_shapes {α : Type} [Zero α] [Add α] (m : Model α)
    (s0 : List (Option α)) (data : List α) (key : Nat)
    (h : s0.length = m.length) :
    (forward m s0 data key).1.length = m.length ∧
    (forward m s0 data key).2.length = m.length ∧
    (∀ l, l < m.length →
      ((forward m s0 data key).2.getD l []).length = data.length) ∧
    (forward m s0 data key).2.getLastD [] =
      (forward m s0 data key).2.getD (m.length - 1) [] := by
  refine ⟨?_, ?_, ?_, ?_⟩
  · exact scan_state_length m data _ h
  · simp [forward, layerMajor_length]
  · intro l hl
    simp only [forward]
    rw [layerMajor_getD_length _ _ _ hl, scanList_snd_length]
  · rw [getLastD_eq_getD]
    have h2 : (forward m s0 data key).2.length = m.length := by
      simp [forward, layerMajor_length]
    rw [h2]

/-- Witness for claim C1 on a concrete two-layer model and a two-step
input. -/
theorem forward_shapes_witness :
    (initState exModel 0).length = exModel.length ∧
    ((forward exModel (initState exModel 0) [1, 2] 5).1.length =
        exModel.length ∧
      (forward exModel (initState exModel 0) [1, 2] 5).2.length =
        exModel.length ∧
      (∀ l, l < exModel.length →
        ((forward exModel (initState exModel 0) [1, 2] 5).2.getD l []).length
          = ([1, 2] : List ℚ).length) ∧
      (forward exModel (initState exModel 0) [1, 2] 5).2.getLastD [] =
        (forward exModel (initState exModel 0) [1, 2] 5).2.getD
          (exModel.length - 1) []) :=
  ⟨by decide, forward_shapes exModel (initState exModel 0) [1, 2] 5 (by decide)⟩

/-- Claim C2: every state update of the model is a pure function: two model
calls with identical model, initial state, input sequence and PRNG key
return identical pairs of states and outputs; the model call is a function
of its arguments in this embedding, so it has no observable effect besides
its return value. -/
theorem forward_pure {α : Type} [Zero α] [Add α] (m1 m2 : Model α)
    (s1 s2 : List (Option α)) (d1 d2 : List α) (k1 k2 : Nat)
    (hm : m1 = m2) (hs : s1 = s2) (hd : d1 = d2) (hk : k1 = k2) :
    forward m1 s1 d1 k1 = forward m2 s2 d2 k2 := by
  subst hm
  subst hs
  subst hd
  subst hk
  rfl

/-- Witness for claim C2 on a concrete model, state, input and key. -/
theorem forward_pure_witness :
    exModel = exModel ∧ initState exModel 0 = initState exModel 0 ∧
    ([1, 2] : List ℚ) = [1, 2] ∧ (7 : Nat) = 7 ∧
    forward exModel (initState exModel 0) [1, 2] 7 =
      forward exModel (initState exModel 0) [1, 2] 7 :=
  ⟨rfl, rfl, rfl, rfl,
    forward_pure exModel exModel (initState exModel 0) (initState exModel 0)
      [1, 2] [1, 2] 7 7 rfl rfl rfl rfl⟩

/-- Splitting the input sequence splits the scan: the carry returned by the
first part is fed back in as the starting carry of the second part. -/
theorem scanList_append {σ α β : Type} (f : σ → α → σ × β) :
    ∀ (xs : List α) (c : σ) (ys : List α),
      scanList f c (xs ++ ys) =
        ((scanList f (scanList f c xs).1 ys).1,
          (scanList f c xs).2 ++ (scanList f (scanList f c xs).1 ys).2) := by
  intro xs
  induction xs with
  | nil => intro c ys; simp [scanList]
  | cons x t ih =>
      intro c ys
      simp only [List.cons_append, scanList, List.append_eq]
      rw [ih]

/-- Claim C3: per-layer state is threaded explicitly: the hidden states are
passed and returned as explicit values, so that the scan over a split input
sequence feeds the carry returned by the first part back in as the starting
carry of the second part; and the update step of the notebook consumes the
states built by model.init_state, leaves the model of the forward call
unchanged, and produces its new model only through eqx.apply_updates. -/
theorem state_threading_frame {α G O : Type} [Zero α] [Add α]
    (lossGrads : Model α → List (Option α) → α → α → Nat → α × G)
    (optimUpdate : G → O → G × O) (applyUpd : Model α → G → Model α)
    (model : Model α) (optS : O) (inputB targetB : α) (key : Nat)
    (m : Model α) (c : Carry α) (d1 d2 : List α) :
    (updateStep lossGrads optimUpdate applyUpd model optS inputB targetB
        key).1 =
      applyUpd model
        (optimUpdate
          (lossGrads model (initState model (splitKey key).1) inputB targetB
            (splitKey key).2).2 optS).1 ∧
    scanList (scanStep m) c (d1 ++ d2) =
      ((scanList (scanStep m) (scanList (scanStep m) c d1).1 d2).1,
        (scanList (scanStep m) c d1).2 ++
          (scanList (scanStep m) (scanList (scanStep m) c d1).1 d2).2) :=
  ⟨rfl, scanList_append (scanStep m) d1 c d2⟩

/-- Folding the naive per-step loop from any accumulator agrees with the
scan. -/
theorem naive_foldl_general {α : Type} [Zero α] [Add α] (m : Model α) :
    ∀ (data : List α) (c : Carry α) (acc : List (List α)),
      data.foldl
          (fun p x =>
            let r := scanStep m p.1 x
            (r.1, p.2 ++ [r.2]))
          (c, acc) =
        ((scanList (scanStep m) c data).1,
          acc ++ (scanList (scanStep m) c data).2) := by
  intro data
  induction data with
  | nil => intro c acc; simp [scanList]
  | cons x t ih =>
      intro c acc
      simp only [List.foldl_cons, scanList]
      rw [ih]
      simp

/-- Claim C4: executing the model over a T-step input sequence in a single
scan loop equals iterating the one-step update function T times in input
order with the hidden states threaded from step to step, and the model call
factors through that naive per-step loop. -/
theorem scan_refines_naive {α : Type} [Zero α] [Add α] (m : Model α)
    (c : Carry α) (data : List α) (s0 : List (Option α)) (key : Nat) :
    scanList (scanStep m) c data = naiveRun m c data ∧
    forward m s0 data key =
      ((naiveRun m (s0, zeros α m.length, key) data).1.1,
        layerMajor m.length
          (naiveRun m (s0, zeros α m.length, key) data).2) := by
  have hgen : ∀ (c0 : Carry α), scanList (scanStep m) c0 data =
      naiveRun m c0 data := by
    intro c0
    rw [naiveRun, naive_foldl_general]
    simp
  refine ⟨hgen c, ?_⟩
  simp only [forward]
  rw [hgen]

/-- Claim C5: the execution engine accepts connectivity specifications with
cycles: for a layer graph containing a feedback edge, every time step still
produces one new hidden state and one output sequence for every layer, and
the ordering constraints hold: a feedback connection reads the output of
the previous time step while a forward connection reads the output already
produced in the current step. -/
theorem feedback_graphs_execute {α : Type} [Zero α] [Add α] (m : Model α)
    (hfb : hasFeedback m = true) (s0 : List (Option α)) (data : List α)
    (key : Nat) (hs : s0.length = m.length) :
    ((forward m s0 data key).1.length = m.length ∧
      (forward m s0 data key).2.length = m.length ∧
      ∀ l, l < m.length →
        ((forward m s0 data key).2.getD l []).length = data.length) ∧
    (∀ (prev cur : List α) (i j : Nat) (ext : α), i ≤ j →
      connValue prev cur i ext (Conn.layer j) = prev.getD j 0) ∧
    (∀ (prev cur : List α) (i j : Nat) (ext : α), j < i →
      connValue prev cur i ext (Conn.layer j) = cur.getD j 0) := by
  refine ⟨⟨?_, ?_, ?_⟩, ?_, ?_⟩
  · exact scan_state_length m data _ hs
  · simp [forward, layerMajor_length]
  · intro l hl
    simp only [forward]
    rw [layerMajor_getD_length _ _ _ hl, scanList_snd_length]
  · intro prev cur i j ext hij
    simp [connValue, Nat.not_lt.mpr hij]
  · intro prev cur i j ext hij
    simp [connValue, hij]

/-- Witness for claim C5 on a concrete two-layer model whose first layer
reads the previous-step output of the second. -/
theorem feedback_graphs_execute_witness :
    hasFeedback exFeedback = true ∧
    (initState exFeedback 0).length = exFeedback.length ∧
    (((forward exFeedback (initState exFeedback 0) [1, 2] 5).1.length =
          exFeedback.length ∧
        (forward exFeedback (initState exFeedback 0) [1, 2] 5).2.length =
          exFeedback.length ∧
        ∀ l, l < exFeedback.length →
          ((forward exFeedback (initState exFeedback 0) [1, 2] 5).2.getD l
              []).length = ([1, 2] : List ℚ).length) ∧
      (∀ (prev cur : List ℚ) (i j : Nat) (ext : ℚ), i ≤ j →
        connValue prev cur i ext (Conn.layer j) = prev.getD j 0) ∧
      (∀ (prev cur : List ℚ) (i j : Nat) (ext : ℚ), j < i →
        connValue prev cur i ext (Conn.layer j) = cur.getD j 0)) :=
  ⟨by decide, by decide,
    feedback_graphs_execute exFeedback (by decide) (initState exFeedback 0)
      [1, 2] 5 (by decide)⟩

/-- The state produced by one layer fits that layer. -/
theorem stateMatches_applyLayer {α : Type} (l : Layer α) (k : Nat)
    (st : Option α) (x : α) :
    stateMatches l (applyLayer l k st x).1 = true := by
  cases l <;> rfl

/-- The states produced within one time step fit the remaining layers. -/
theorem stepFrom_matches {α : Type} [Zero α] [Add α] (prev : List α)
    (ext : α) (key : Nat) :
    ∀ (m : Model α) (i : Nat) (cur : List α) (sts : List (Option α)),
      ((List.zip m (stepFrom prev ext key i cur m sts).1).all fun p =>
        stateMatches p.1.layer p.2) = true := by
  intro m
  induction m with
  | nil => intro i cur sts; rfl
  | cons ls rest ih =>
      intro i cur sts
      simp only [stepFrom, List.zip_cons_cons, List.all_cons,
        Bool.and_eq_true]
      exact ⟨stateMatches_applyLayer _ _ _ _, ih _ _ _⟩

/-- One time step always produces a well-formed state list. -/
theorem stepOnce_statesWF {α : Type} [Zero α] [Add α] (m : Model α)
    (key : Nat) (prev : List α) (sts : List (Option α)) (ext : α) :
    statesWF m ((stepOnce m key prev sts ext).1) = true := by
  simp only [statesWF, Bool.and_eq_true, beq_iff_eq]
  exact ⟨stepOnce_fst_length m key prev sts ext,
    stepFrom_matches prev ext key m 0 [] sts⟩

/-- The initial state entries fit their layers. -/
theorem initState_matches {α : Type} (k : Nat) :
    ∀ (m : Model α),
      ((List.zip m (initState m k)).all fun p =>
        stateMatches p.1.layer p.2) = true := by
  intro m
  induction m with
  | nil => rfl
  | cons ls rest ih =>
      simp only [initState, List.map_cons, List.zip_cons_cons, List.all_cons,
        Bool.and_eq_true]
      refine ⟨?_, ih⟩
      rcases ls with ⟨lay, cs⟩
      cases lay <;> rfl

/-- The initial state list of a model is well formed. -/
theorem initState_statesWF {α : Type} (m : Model α) (k : Nat) :
    statesWF m (initState m k) = true := by
  simp only [statesWF, Bool.and_eq_true, beq_iff_eq]
  refine ⟨?_, initState_matches k m⟩
  simp [initState]

/-- The scan keeps the state list well formed. -/
theorem scan_statesWF {α : Type} [Zero α] [Add α] (m : Model α) :
    ∀ (data : List α) (c : Carry α), statesWF m c.1 = true →
      statesWF m ((scanList (scanStep m) c data).1).1 = true := by
  intro data
  induction data with
  | nil => intro c h; exact h
  | cons x t ih =>
      intro c h
      simp only [scanList]
      exact ih _ (stepOnce_statesWF m _ _ _ _)

/-- Claim C6: the engine schedules heterogeneous layers: stateful layers
such as LIF carry a hidden state (the membrane potential) across discrete
time steps, while stateless layers carry no hidden state, and this
distinction is preserved by initialization, by every single step and by the
whole model call. -/
theorem heterogeneous_state_invariant {α : Type} [Zero α] [Add α]
    (m : Model α) :
    (∀ k, statesWF m (initState m k) = true) ∧
    (∀ key prev sts ext,
      statesWF m ((stepOnce m key prev sts ext).1) = true) ∧
    (∀ s0 data key, statesWF m s0 = true →
      statesWF m ((forward m s0 data key).1) = true) := by
  refine ⟨fun k => initState_statesWF m k,
    fun key prev sts ext => stepOnce_statesWF m key prev sts ext, ?_⟩
  intro s0 data key h
  simp only [forward]
  exact scan_statesWF m data _ h

/-- Witness for claim C6 on a concrete model mixing an LIF layer and a
stateless layer. -/
theorem heterogeneous_state_invariant_witness :
    statesWF exModel (initState exModel 3) = true ∧
    statesWF exModel
      ((forward exModel (initState exModel 3) [1, 2] 5).1) = true :=
  ⟨by decide,
    (heterogeneous_state_invariant exModel).2.2 (initState exModel 3) [1, 2]
      5 (by decide)⟩

/-- Reading a list of known length back off by indices reproduces it. -/
theorem range_map_getD {β : Type} (d : β) :
    ∀ (r : List β),
      ((List.range r.length).map fun j => r.getD j d) = r := by
  intro r
  induction r with
  | nil => rfl
  | cons a t ih =>
      rw [List.length_cons, List.range_succ_eq_map, List.map_cons,
        List.map_map]
      have hc : ((fun j => (a :: t).getD j d) ∘ Nat.succ) =
          fun j => t.getD j d := by
        funext j
        simp [List.getD_cons_succ]
      rw [List.getD_cons_zero, hc, ih]

/-- Entrywise reading of the elementwise vector sum. -/
theorem addVec_getD :
    ∀ (a b : List ℝ) (j : Nat), j < a.length → j < b.length →
      (addVec a b).getD j 0 = a.getD j 0 + b.getD j 0 := by
  intro a
  induction a with
  | nil => intro b j h1 h2; cases h1
  | cons x t ih =>
      intro b j h1 h2
      cases b with
      | nil => cases h2
      | cons y u =>
          cases j with
          | zero => rfl
          | succ n =>
              simp only [addVec, List.zipWith_cons_cons, List.getD_cons_succ]
              exact ih u n (Nat.lt_of_succ_lt_succ h1)
                (Nat.lt_of_succ_lt_succ h2)

/-- The elementwise vector sum keeps the common width. -/
theorem addVec_length (a b : List ℝ) :
    (addVec a b).length = min a.length b.length := by
  simp [addVec]

/-- Folding elementwise addition over a rectangular block computes, at each
index, the running value plus the column sum. -/
theorem foldl_addVec_pointwise :
    ∀ (rs : List (List ℝ)) (r : List ℝ) (w : Nat), r.length = w →
      (∀ x ∈ rs, x.length = w) →
      rs.foldl addVec r =
        (List.range w).map fun j =>
          r.getD j 0 + ((rs.map fun x => x.getD j 0).sum) := by
  intro rs
  induction rs with
  | nil =>
      intro r w hr hall
      simp only [List.foldl_nil, List.map_nil, List.sum_nil, add_zero]
      subst hr
      exact (range_map_getD 0 r).symm
  | cons b bs ih =>
      intro r w hr hall
      have hb : b.length = w := hall b (by simp)
      have hab : (addVec r b).length = w := by
        rw [addVec_length, hr, hb, Nat.min_self]
      simp only [List.foldl_cons]
      rw [ih (addVec r b) w hab fun x hx => hall x (by simp [hx])]
      refine List.map_congr_left ?_
      intro j hj
      have hjw : j < w := List.mem_range.mp hj
      rw [addVec_getD r b j (hr ▸ hjw) (hb ▸ hjw)]
      simp [add_assoc]

/-- On a nonempty rectangular block, the embedded jnp.sum along the time
axis equals the pointwise description of the summed logits. -/
theorem sumAxis0_eq_pointwise (rows : List (List ℝ)) (w : Nat)
    (hne : rows ≠ []) (hw : ∀ r ∈ rows, r.length = w) :
    sumAxis0 rows = pointwiseTimeSum w rows := by
  cases rows with
  | nil => exact absurd rfl hne
  | cons r rs =>
      simp only [sumAxis0, pointwiseTimeSum]
      rw [foldl_addVec_pointwise rs r w (hw r (by simp))
        fun x hx => hw x (by simp [hx])]
      refine List.map_congr_left ?_
      intro j hj
      simp

/-- Mapping over zipped batch axes equals mapping over batch indices. -/
theorem zip3_map_eq_range {γ δ ε : Type} (dflt1 : γ) (dflt2 : δ) (dflt3 : ε)
    (g : γ → δ → ε → ℝ) :
    ∀ (dataB : List γ) (targetB : List δ) (keyB : List ε),
      targetB.length = dataB.length → keyB.length = dataB.length →
      ((List.zip dataB (List.zip targetB keyB)).map fun p =>
        g p.1 p.2.1 p.2.2) =
        (List.range dataB.length).map fun i =>
          g (dataB.getD i dflt1) (targetB.getD i dflt2)
            (keyB.getD i dflt3) := by
  intro dataB
  induction dataB with
  | nil => intro tB kB h1 h2; rfl
  | cons d ds ih =>
      intro tB kB h1 h2
      cases tB with
      | nil => simp at h1
      | cons t ts =>
          cases kB with
          | nil => simp at h2
          | cons k ks =>
              simp only [List.length_cons, Nat.succ.injEq] at h1 h2
              simp only [List.zip_cons_cons, List.map_cons, List.length_cons]
              rw [List.range_succ_eq_map, List.map_cons, List.map_map]
              simp only [List.getD_cons_zero, Function.comp,
                List.getD_cons_succ]
              congr 1
              exact ih ts ks h1 h2

/-- Claim C8: the predicted logits of a sample equal the elementwise sum
over the time axis of the output sequence of the final layer, the
per-sample loss is the softmax cross-entropy of those logits against the
target, and the batch loss is the sum of the per-sample losses over the
batch. -/
theorem loss_structure (model : NbModel) (s0 : List (List ℝ))
    (data : List (List ℝ)) (target : List ℝ) (key : Nat) (w : Nat)
    (hne : (model s0 data key).2.getLastD [] ≠ [])
    (hw : ∀ r ∈ (model s0 data key).2.getLastD [], r.length = w) :
    lossFn model s0 data target key =
      softmaxCrossEntropy
        (pointwiseTimeSum w ((model s0 data key).2.getLastD [])) target ∧
    ∀ (dataB : List (List (List ℝ))) (targetB : List (List ℝ))
      (keyB : List Nat),
      targetB.length = dataB.length → keyB.length = dataB.length →
      lossValue model s0 dataB targetB keyB =
        ((List.range dataB.length).map fun i =>
          lossFn model s0 (dataB.getD i []) (targetB.getD i [])
            (keyB.getD i 0)).sum := by
  constructor
  · simp only [lossFn]
    rw [sumAxis0_eq_pointwise _ w hne hw]
  · intro dataB targetB keyB h1 h2
    simp only [lossValue, lossFnBatch]
    rw [zip3_map_eq_range [] [] 0
      (fun d t k => lossFn model s0 d t k) dataB targetB keyB h1 h2]

/-- Witness for claim C8 on a concrete model output with two time steps of
two logits. -/
theorem loss_structure_witness :
    (exNbModel [] [[1]] 0).2.getLastD [] ≠ [] ∧
    (∀ r ∈ (exNbModel [] [[1]] 0).2.getLastD [], r.length = 2) ∧
    (lossFn exNbModel [] [[1]] [1, 0] 0 =
        softmaxCrossEntropy
          (pointwiseTimeSum 2 ((exNbModel [] [[1]] 0).2.getLastD []))
          [1, 0] ∧
      ∀ (dataB : List (List (List ℝ))) (targetB : List (List ℝ))
        (keyB : List Nat),
        targetB.length = dataB.length → keyB.length = dataB.length →
        lossValue exNbModel [] dataB targetB keyB =
          ((List.range dataB.length).map fun i =>
            lossFn exNbModel [] (dataB.getD i []) (targetB.getD i [])
              (keyB.getD i 0)).sum) := by
  have hne : (exNbModel [] [[1]] 0).2.getLastD [] ≠ [] := by
    simp [exNbModel]
  have hw : ∀ r ∈ (exNbModel [] [[1]] 0).2.getLastD [], r.length = 2 := by
    intro r hr
    have h2 : r = [2, 1] ∨ r = [0, 3] := by
      simpa [exNbModel] using hr
    rcases h2 with h | h <;> rw [h] <;> rfl
  exact ⟨hne, hw, loss_structure exNbModel [] [[1]] [1, 0] 0 2 hne hw⟩

/-- Claim C9: the training step as written cannot execute: the training
loop invokes update with six arguments though update declares seven
parameters, binding model_key to the loss_fn parameter and leaving key
missing, and update invokes loss_and_grads with six arguments though it
declares five parameters, so each invocation raises an arity error instead
of returning an updated model. -/
theorem training_step_arity_errors :
    bindCall updateParams trainLoopUpdateArgs =
      CallResult.missingArgs ["key"] ∧
    runCall updateParams trainLoopUpdateArgs = none ∧
    bindCall lossAndGradsParams updateLossAndGradsArgs =
      CallResult.tooManyArgs 5 6 ∧
    runCall lossAndGradsParams updateLossAndGradsArgs = none := by
  decide

/-- Claim C10: the snn.Sequential model cell of the notebook fails: its
recorded output is a ValueError whose message is exactly the one Python
tuple unpacking raises on a two-element sequence unpacked into three
targets, so the documented model definition produces no usable model
value. -/
theorem sequential_cell_fails :
    (modelCellOutputs.any fun e => e.ename == "ValueError") = true ∧
    modelCellError.evalue =
      "not enough values to unpack (expected 3, got 2)" ∧
    cellSucceeded modelCellOutputs = false ∧
    unpackTuple 3 ([10, 20] : List Nat) =
      Except.error modelCellError.evalue := by
  refine ⟨by decide, rfl, rfl, rfl⟩

/-- Pointwise equal families are simultaneously differentiable. -/
theorem diff_congr {f g : ℝ → ℝ} (h : ∀ t, f t = g t)
    (hg : Differentiable ℝ g) : Differentiable ℝ f := by
  have he : f = g := funext h
  rw [he]
  exact hg

/-- Pointwise equal list families are simultaneously DiffFam. -/
theorem diffFam_congr {g1 g2 : ℝ → List ℝ} (h : ∀ t, g1 t = g2 t)
    (hg : DiffFam g2) : DiffFam g1 := by
  have he : g1 = g2 := funext h
  rw [he]
  exact hg

/-- Pointwise equal state families are simultaneously DiffStFam. -/
theorem diffStFam_congr {g1 g2 : ℝ → List (Option ℝ)}
    (h : ∀ t, g1 t = g2 t) (hg : DiffStFam g2) : DiffStFam g1 := by
  have he : g1 = g2 := funext h
  rw [he]
  exact hg

/-- Pointwise equal row families are simultaneously DiffFam2. -/
theorem diffFam2_congr {g1 g2 : ℝ → List (List ℝ)}
    (h : ∀ t, g1 t = g2 t) (hg : DiffFam2 g2) : DiffFam2 g1 := by
  have he : g1 = g2 := funext h
  rw [he]
  exact hg

/-- The empty list family is DiffFam. -/
theorem diffFam_nil : DiffFam fun _ => ([] : List ℝ) := by
  refine ⟨[], ?_, fun _ => rfl⟩
  intro f hf
  cases hf

/-- Consing a differentiable entry keeps a family DiffFam. -/
theorem diffFam_cons {g : ℝ → List ℝ} {e : ℝ → ℝ} (he : Differentiable ℝ e)
    (hg : DiffFam g) : DiffFam fun t => e t :: g t := by
  obtain ⟨fs, hfs, heq⟩ := hg
  refine ⟨e :: fs, ?_, ?_⟩
  · intro f hf
    rcases List.mem_cons.mp hf with h | h
    · rw [h]; exact he
    · exact hfs f h
  · intro t
    simp [heq t]

/-- A constant list family is DiffFam. -/
theorem diffFam_const (l : List ℝ) : DiffFam fun _ => l := by
  induction l with
  | nil => exact diffFam_nil
  | cons x xs ih => exact diffFam_cons (differentiable_const x) ih

/-- Appending a differentiable entry keeps a family DiffFam. -/
theorem diffFam_concat {g : ℝ → List ℝ} {e : ℝ → ℝ}
    (he : Differentiable ℝ e) (hg : DiffFam g) :
    DiffFam fun t => g t ++ [e t] := by
  obtain ⟨fs, hfs, heq⟩ := hg
  refine ⟨fs ++ [e], ?_, ?_⟩
  · intro f hf
    rcases List.mem_append.mp hf with h | h
    · exact hfs f h
    · rw [List.mem_singleton.mp h]; exact he
  · intro t
    simp [heq t]

/-- Reading an evaluated function list by index evaluates the indexed
function. -/
theorem map_eval_getD (fs : List (ℝ → ℝ)) (t : ℝ) :
    ∀ j, ((fs.map fun f => f t).getD j 0) = (fs.getD j fun _ => 0) t := by
  induction fs with
  | nil => intro j; rfl
  | cons f fs2 ih =>
      intro j
      cases j with
      | zero => rfl
      | succ n =>
          simp only [List.map_cons, List.getD_cons_succ]
          exact ih n

/-- An indexed list entry is a member or the default. -/
theorem getD_mem_or {β : Type} (d : β) :
    ∀ (fs : List β) (j : Nat), fs.getD j d ∈ fs ∨ fs.getD j d = d := by
  intro fs
  induction fs with
  | nil => intro j; right; rfl
  | cons f fs2 ih =>
      intro j
      cases j with
      | zero => left; simp
      | succ n =>
          rcases ih n with h | h
          · left
            rw [List.getD_cons_succ]
            exact List.mem_cons_of_mem f h
          · right
            rw [List.getD_cons_succ]
            exact h

/-- Each entry of a DiffFam family is differentiable. -/
theorem diffFam_getD {g : ℝ → List ℝ} (hg : DiffFam g) (j : Nat) :
    Differentiable ℝ fun t => (g t).getD j 0 := by
  obtain ⟨fs, hfs, heq⟩ := hg
  have hEq : (fun t => (g t).getD j 0) =
      fun t => (fs.getD j fun _ => 0) t := by
    funext t
    rw [heq t, map_eval_getD]
  rw [hEq]
  rcases getD_mem_or (fun _ : ℝ => (0 : ℝ)) fs j with h | h
  · exact hfs _ h
  · have hz : (fun t : ℝ => (fs.getD j fun _ => 0) t) =
        fun _ : ℝ => (0 : ℝ) := by
      funext t
      rw [h]
    rw [hz]
    exact differentiable_const 0

/-- The empty state family is DiffStFam. -/
theorem diffStFam_nil : DiffStFam fun _ => ([] : List (Option ℝ)) := by
  refine ⟨[], ?_, fun _ => rfl⟩
  intro f hf
  cases hf

/-- Consing a present differentiable state keeps a family DiffStFam. -/
theorem diffStFam_consSome {g : ℝ → List (Option ℝ)} {e : ℝ → ℝ}
    (he : Differentiable ℝ e) (hg : DiffStFam g) :
    DiffStFam fun t => some (e t) :: g t := by
  obtain ⟨fs, hfs, heq⟩ := hg
  refine ⟨some e :: fs, ?_, ?_⟩
  · intro f hf
    rcases List.mem_cons.mp hf with h | h
    · rw [Option.some.injEq] at h
      rw [h]
      exact he
    · exact hfs f h
  · intro t
    simp [heq t]

/-- Consing an absent state keeps a family DiffStFam. -/
theorem diffStFam_consNone {g : ℝ → List (Option ℝ)} (hg : DiffStFam g) :
    DiffStFam fun t => none :: g t := by
  obtain ⟨fs, hfs, heq⟩ := hg
  refine ⟨none :: fs, ?_, ?_⟩
  · intro f hf
    rcases List.mem_cons.mp hf with h | h
    · cases h
    · exact hfs f h
  · intro t
    simp [heq t]

/-- The head of a DiffStFam family is uniformly absent or a uniformly
present differentiable state, and its tail is again DiffStFam. -/
theorem diffStFam_head_tail {g : ℝ → List (Option ℝ)} (hg : DiffStFam g) :
    ((∀ t, (g t).headD none = none) ∨
      ∃ e : ℝ → ℝ, Differentiable ℝ e ∧ ∀ t, (g t).headD none = some (e t)) ∧
    DiffStFam fun t => (g t).tail := by
  obtain ⟨fs, hfs, heq⟩ := hg
  constructor
  · cases fs with
    | nil =>
        left
        intro t
        rw [heq t]
        rfl
    | cons o fs2 =>
        cases o with
        | none =>
            left
            intro t
            rw [heq t]
            rfl
        | some e =>
            right
            refine ⟨e, hfs e (by simp), fun t => ?_⟩
            rw [heq t]
            rfl
  · cases fs with
    | nil =>
        refine diffStFam_congr (fun t => ?_) diffStFam_nil
        rw [heq t]
        rfl
    | cons o fs2 =>
        have h2 : DiffStFam fun t => fs2.map fun o2 => o2.map fun f => f t :=
          ⟨fs2, fun f hf => hfs f (List.mem_cons_of_mem o hf), fun _ => rfl⟩
        refine diffStFam_congr (fun t => ?_) h2
        rw [heq t]
        rfl

/-- The empty row family is DiffFam2. -/
theorem diffFam2_nil : DiffFam2 fun _ => ([] : List (List ℝ)) := by
  refine ⟨[], ?_, fun _ => rfl⟩
  intro f hf
  cases hf

/-- Consing a DiffFam row keeps a family DiffFam2. -/
theorem diffFam2_cons {g : ℝ → List (List ℝ)} {e : ℝ → List ℝ}
    (he : DiffFam e) (hg : DiffFam2 g) : DiffFam2 fun t => e t :: g t := by
  obtain ⟨fs, hfs, heq⟩ := hg
  refine ⟨e :: fs, ?_, ?_⟩
  · intro f hf
    rcases List.mem_cons.mp hf with h | h
    · rw [h]; exact he
    · exact hfs f h
  · intro t
    simp [heq t]

/-- Reading one column of a DiffFam2 family gives a DiffFam family. -/
theorem diffFam2_col {g : ℝ → List (List ℝ)} (hg : DiffFam2 g) (j : Nat) :
    DiffFam fun t => (g t).map fun row => row.getD j 0 := by
  obtain ⟨fs, hfs, heq⟩ := hg
  refine ⟨fs.map fun rf => fun t => (rf t).getD j 0, ?_, ?_⟩
  · intro f hf
    rcases List.mem_map.mp hf with ⟨rf, hrf, hx⟩
    rw [← hx]
    exact diffFam_getD (hfs rf hrf) j
  · intro t
    simp only [heq, List.map_map]
    rfl

/-- The sum of an evaluated list of differentiable functions is
differentiable. -/
theorem diff_map_eval_sum :
    ∀ (fs : List (ℝ → ℝ)), (∀ f ∈ fs, Differentiable ℝ f) →
      Differentiable ℝ fun t => (fs.map fun f => f t).sum := by
  intro fs
  induction fs with
  | nil => intro _; simp
  | cons f fs2 ih =>
      intro h
      have h1 : Differentiable ℝ f := h f (by simp)
      have h2 := ih fun f2 hf2 => h f2 (List.mem_cons_of_mem f hf2)
      simpa using h1.add h2

/-- The entrywise sum of a DiffFam family is differentiable. -/
theorem diffFam_sum {g : ℝ → List ℝ} (hg : DiffFam g) :
    Differentiable ℝ fun t => (g t).sum := by
  obtain ⟨fs, hfs, heq⟩ := hg
  have hEq : (fun t => (g t).sum) =
      fun t => ((fs.map fun f => f t).sum) := by
    funext t
    rw [heq t]
  rw [hEq]
  exact diff_map_eval_sum fs hfs

/-- The value carried by one connection is differentiable in the
parameter. -/
theorem connValue_diff {prevF curF : ℝ → List ℝ} {extF : ℝ → ℝ} (i : Nat)
    (hp : DiffFam prevF) (hc : DiffFam curF) (he : Differentiable ℝ extF)
    (c : Conn) :
    Differentiable ℝ fun t => connValue (prevF t) (curF t) i (extF t) c := by
  cases c with
  | input => exact he
  | layer j =>
      by_cases hj : j < i
      · have h := diffFam_getD hc j
        simpa [connValue, hj] using h
      · have h := diffFam_getD hp j
        simpa [connValue, hj] using h

/-- The running connection sum is differentiable in the parameter. -/
theorem gather_foldl_diff {prevF curF : ℝ → List ℝ} {extF : ℝ → ℝ}
    (i : Nat) (hp : DiffFam prevF) (hc : DiffFam curF)
    (he : Differentiable ℝ extF) :
    ∀ (cs : List Conn) (accF : ℝ → ℝ), Differentiable ℝ accF →
      Differentiable ℝ fun t =>
        cs.foldl
          (fun acc c => acc + connValue (prevF t) (curF t) i (extF t) c)
          (accF t) := by
  intro cs
  induction cs with
  | nil => intro accF ha; exact ha
  | cons c cs2 ih =>
      intro accF ha
      have hstep : Differentiable ℝ fun t =>
          accF t + connValue (prevF t) (curF t) i (extF t) c :=
        ha.add (connValue_diff i hp hc he c)
      have h := ih _ hstep
      simpa [List.foldl_cons] using h

/-- The gathered layer input is differentiable in the parameter. -/
theorem gather_diff {prevF curF : ℝ → List ℝ} {extF : ℝ → ℝ} (i : Nat)
    (hp : DiffFam prevF) (hc : DiffFam curF) (he : Differentiable ℝ extF)
    (cs : List Conn) :
    Differentiable ℝ fun t => gather (prevF t) (curF t) i (extF t) cs :=
  gather_foldl_diff i hp hc he cs (fun _ => 0) (differentiable_const 0)

/-- Executing the remaining layers of a parameterized model within one time
step sends differentiable families to differentiable families: the new
hidden states and the outputs are again differentiable in the parameter. -/
theorem stepFrom_diff (key : Nat) :
    ∀ (pm : List PLayerSpec), (∀ s ∈ pm, DiffPLayer s.pl) →
      ∀ (i : Nat) (curF : ℝ → List ℝ) (stsF : ℝ → List (Option ℝ))
        (prevF : ℝ → List ℝ) (extF : ℝ → ℝ),
        DiffFam prevF → DiffFam curF → Differentiable ℝ extF →
        DiffStFam stsF →
        DiffStFam (fun t => (stepFrom (prevF t) (extF t) key i (curF t)
          (instModel pm t) (stsF t)).1) ∧
        DiffFam (fun t => (stepFrom (prevF t) (extF t) key i (curF t)
          (instModel pm t) (stsF t)).2) := by
  intro pm
  induction pm with
  | nil =>
      intro _ i curF stsF prevF extF _ _ _ _
      exact ⟨diffStFam_nil, diffFam_nil⟩
  | cons s pms ih =>
      intro hd i curF stsF prevF extF hp hc he hsts
      obtain ⟨hhead, htail⟩ := diffStFam_head_tail hsts
      have hds : DiffPLayer s.pl := hd s (by simp)
      have hdrest : ∀ s2 ∈ pms, DiffPLayer s2.pl := fun s2 h2 =>
        hd s2 (List.mem_cons_of_mem s h2)
      rcases s with ⟨pl, cs⟩
      have hinp : Differentiable ℝ fun t =>
          gather (prevF t) (curF t) i (extF t) cs :=
        gather_diff i hp hc he cs
      cases pl with
      | stateful step i0 =>
          have hds2 : (∀ k, Differentiable ℝ fun v : ℝ × ℝ × ℝ =>
                (step v.1 k v.2.1 v.2.2).1) ∧
              (∀ k, Differentiable ℝ fun v : ℝ × ℝ × ℝ =>
                (step v.1 k v.2.1 v.2.2).2) ∧
              Differentiable ℝ i0 := hds
          obtain ⟨h1, h2, h3⟩ := hds2
          have hex : ∃ sv : ℝ → ℝ, Differentiable ℝ sv ∧
              ∀ t, ((stsF t).headD none).getD (i0 t) = sv t := by
            rcases hhead with hnone | ⟨e, he2, hsome⟩
            · exact ⟨i0, h3, fun t => by rw [hnone t]; rfl⟩
            · exact ⟨e, he2, fun t => by rw [hsome t]; rfl⟩
          obtain ⟨sv, hsv, heqv⟩ := hex
          have htup : Differentiable ℝ fun t =>
              (t, sv t, gather (prevF t) (curF t) i (extF t) cs) :=
            differentiable_id.prod (hsv.prod hinp)
          have hns : Differentiable ℝ fun t =>
              (step t (mixKey key i) (sv t)
                (gather (prevF t) (curF t) i (extF t) cs)).1 :=
            (h1 (mixKey key i)).comp htup
          have hout : Differentiable ℝ fun t =>
              (step t (mixKey key i) (sv t)
                (gather (prevF t) (curF t) i (extF t) cs)).2 :=
            (h2 (mixKey key i)).comp htup
          have hcur2 : DiffFam fun t => curF t ++
              [(step t (mixKey key i) (sv t)
                (gather (prevF t) (curF t) i (extF t) cs)).2] :=
            diffFam_concat hout hc
          have hrec := ih hdrest (i + 1)
            (fun t => curF t ++
              [(step t (mixKey key i) (sv t)
                (gather (prevF t) (curF t) i (extF t) cs)).2])
            (fun t => (stsF t).tail) prevF extF hp hcur2 he htail
          constructor
          · refine diffStFam_congr (fun t => ?_)
              (diffStFam_consSome hns hrec.1)
            simp only [instModel, List.map_cons, stepFrom, applyLayer,
              PLayer.inst]
            rw [heqv t]
          · refine diffFam_congr (fun t => ?_) (diffFam_cons hout hrec.2)
            simp only [instModel, List.map_cons, stepFrom, applyLayer,
              PLayer.inst]
            rw [heqv t]
      | stateless f =>
          have hds2 : ∀ k, Differentiable ℝ fun v : ℝ × ℝ =>
              f v.1 k v.2 := hds
          have htup : Differentiable ℝ fun t =>
              (t, gather (prevF t) (curF t) i (extF t) cs) :=
            differentiable_id.prod hinp
          have hout : Differentiable ℝ fun t =>
              f t (mixKey key i) (gather (prevF t) (curF t) i (extF t) cs) :=
            (hds2 (mixKey key i)).comp htup
          have hcur2 : DiffFam fun t => curF t ++
              [f t (mixKey key i) (gather (prevF t) (curF t) i (extF t) cs)] :=
            diffFam_concat hout hc
          have hrec := ih hdrest (i + 1)
            (fun t => curF t ++
              [f t (mixKey key i) (gather (prevF t) (curF t) i (extF t) cs)])
            (fun t => (stsF t).tail) prevF extF hp hcur2 he htail
          constructor
          · refine diffStFam_congr (fun t => ?_)
              (diffStFam_consNone hrec.1)
            simp only [instModel, List.map_cons, stepFrom, applyLayer,
              PLayer.inst]
          · refine diffFam_congr (fun t => ?_) (diffFam_cons hout hrec.2)
            simp only [instModel, List.map_cons, stepFrom, applyLayer,
              PLayer.inst]

/-- Scanning a parameterized model over the input sequence sends
differentiable carry families to a differentiable final state family and
differentiable output rows. -/
theorem scan_diff (pm : List PLayerSpec) (hd : ∀ s ∈ pm, DiffPLayer s.pl) :
    ∀ (data : List ℝ) (key : Nat) (stsF : ℝ → List (Option ℝ))
      (prevF : ℝ → List ℝ),
      DiffStFam stsF → DiffFam prevF →
      DiffStFam (fun t => ((scanList (scanStep (instModel pm t))
        (stsF t, prevF t, key) data).1).1) ∧
      DiffFam2 (fun t => (scanList (scanStep (instModel pm t))
        (stsF t, prevF t, key) data).2) := by
  intro data
  induction data with
  | nil =>
      intro key stsF prevF hsts hprev
      exact ⟨hsts, diffFam2_nil⟩
  | cons x xs ih =>
      intro key stsF prevF hsts hprev
      have hstep := stepFrom_diff (splitKey key).1 pm hd 0
        (fun _ => ([] : List ℝ)) stsF prevF (fun _ => x) hprev diffFam_nil
        (differentiable_const x) hsts
      have hnext := ih (splitKey key).2
        (fun t => (stepOnce (instModel pm t) (splitKey key).1 (prevF t)
          (stsF t) x).1)
        (fun t => (stepOnce (instModel pm t) (splitKey key).1 (prevF t)
          (stsF t) x).2)
        hstep.1 hstep.2
      constructor
      · refine diffStFam_congr (fun t => ?_) hnext.1
        simp only [scanList, scanStep]
      · refine diffFam2_congr (fun t => ?_)
          (diffFam2_cons hstep.2 hnext.2)
        simp only [scanList, scanStep, stepOnce]

/-- The initial state of a parameterized model is a differentiable state
family. -/
theorem initState_diff (ikey : Nat) :
    ∀ (pm : List PLayerSpec), (∀ s ∈ pm, DiffPLayer s.pl) →
      DiffStFam fun t => initState (instModel pm t) ikey := by
  intro pm
  induction pm with
  | nil => intro _; exact diffStFam_nil
  | cons s pms ih =>
      intro hd
      have hrest := ih fun s2 h2 => hd s2 (List.mem_cons_of_mem s h2)
      have hds : DiffPLayer s.pl := hd s (by simp)
      rcases s with ⟨pl, cs⟩
      cases pl with
      | stateful step i0 =>
          have hds2 : (∀ k, Differentiable ℝ fun v : ℝ × ℝ × ℝ =>
                (step v.1 k v.2.1 v.2.2).1) ∧
              (∀ k, Differentiable ℝ fun v : ℝ × ℝ × ℝ =>
                (step v.1 k v.2.1 v.2.2).2) ∧
              Differentiable ℝ i0 := hds
          refine diffStFam_congr (fun t => ?_)
            (diffStFam_consSome hds2.2.2 hrest)
          simp only [instModel, List.map_cons, initState, PLayer.inst]
      | stateless f =>
          refine diffStFam_congr (fun t => ?_) (diffStFam_consNone hrest)
          simp only [instModel, List.map_cons, initState, PLayer.inst]

/-- Indexing the layer-major outputs at the last position reads the last
column of the rows. -/
theorem layerMajor_getLastD (n : Nat) (rows : List (List ℝ)) (hn : 0 < n) :
    (layerMajor n rows).getLastD [] =
      rows.map fun row => row.getD (n - 1) 0 := by
  rw [getLastD_eq_getD, layerMajor_length]
  simp only [layerMajor, List.getD_eq_getElem?_getD, List.getElem?_map,
    List.getElem?_range (Nat.sub_lt hn Nat.one_pos), Option.map_some',
    Option.getD_some]

/-- The per-sample loss of a parameterized model is differentiable in the
parameter. -/
theorem sampleLoss_diff (pm : List PLayerSpec)
    (hd : ∀ s ∈ pm, DiffPLayer s.pl) (readout : ℝ → ℝ)
    (hr : Differentiable ℝ readout) (ikey : Nat) (data : List ℝ)
    (key : Nat) :
    Differentiable ℝ fun t =>
      sampleLoss readout (instModel pm t) ikey data key := by
  rcases pm with _ | ⟨s, pms⟩
  · exact differentiable_const (readout 0)
  · have hn : 0 < (s :: pms).length := Nat.succ_pos pms.length
    have hs0 := initState_diff ikey (s :: pms) hd
    have hscan := scan_diff (s :: pms) hd data key
      (fun t => initState (instModel (s :: pms) t) ikey)
      (fun _ => zeros ℝ (s :: pms).length) hs0
      (diffFam_const (zeros ℝ (s :: pms).length))
    refine diff_congr (fun t => ?_)
      (hr.comp (diffFam_sum (diffFam2_col hscan.2 ((s :: pms).length - 1))))
    simp only [sampleLoss, forward]
    rw [show (instModel (s :: pms) t).length = (s :: pms).length from by
      simp [instModel]]
    rw [layerMajor_getLastD (s :: pms).length _ hn]
    rfl

/-- Claim C7: the composed model is differentiable end-to-end: the summed
loss over the batch, obtained by running the full composition of stateful
and stateless layers across all time steps and applying a differentiable
readout to the time-summed output of the last layer, is differentiable in
the model parameter, so its gradient is defined. -/
theorem loss_differentiable (pm : List PLayerSpec) (readout : ℝ → ℝ)
    (ikey : Nat) (batch : List (List ℝ × Nat))
    (hlayers : ∀ s ∈ pm, DiffPLayer s.pl)
    (hread : Differentiable ℝ readout) :
    Differentiable ℝ (totalLoss readout pm ikey batch) := by
  induction batch with
  | nil =>
      have h : Differentiable ℝ fun _ : ℝ => (0 : ℝ) :=
        differentiable_const 0
      exact h
  | cons b bs ih =>
      have hb := sampleLoss_diff pm hlayers readout hread ikey b.1 b.2
      have h := hb.add ih
      refine diff_congr (fun t => ?_) h
      simp [totalLoss]

/-- Witness for claim C7 on a concrete two-layer parameterized model with a
feedback edge and the identity readout. -/
theorem loss_differentiable_witness :
    (∀ s ∈ exPLayers, DiffPLayer s.pl) ∧
    Differentiable ℝ (fun x : ℝ => x) ∧
    Differentiable ℝ (totalLoss (fun x => x) exPLayers 0 [([1, 2], 5)]) := by
  have hl : ∀ s ∈ exPLayers, DiffPLayer s.pl := by
    intro s hs
    simp only [exPLayers, List.mem_cons, List.not_mem_nil, or_false] at hs
    rcases hs with h | h
    · rw [h]
      refine ⟨fun k => ?_, fun k => ?_, ?_⟩
      · exact differentiable_snd.fst.add
          (differentiable_fst.mul differentiable_snd.snd)
      · exact differentiable_snd.fst.add
          (differentiable_fst.mul differentiable_snd.snd)
      · exact differentiable_id'
    · rw [h]
      intro k
      exact differentiable_fst.mul differentiable_snd
  have hid : Differentiable ℝ (fun x : ℝ => x) := differentiable_id'
  exact ⟨hl, hid,
    loss_differentiable exPLayers (fun x => x) 0 [([1, 2], 5)] hl hid⟩

end Snnax
